import Mathlib

/-!
Verification of the exact substring-search core of `task_3.py`:
`compute_lps` / `kmp_search`, `build_shift_table` / `boyer_moore_search`,
`polynomial_hash` / `rabin_karp_search`.

Texts and patterns are modelled as `List Char`; Python's `ord` is `Char.toNat`.
Python `while` loops are modelled with an explicit fuel parameter; the fuel
supplied by the top-level functions is proven sufficient below, so `timeout`
is never the actual result.  An uncaught Python exception (`IndexError` from
an out-of-range index, `ValueError` from `pow`) is modelled as the outcome
`error`.
-/

/-- Result of running one of the searchers: `timeout` (fuel ran out — proven
unreachable), `error` (the Python code raises), or `ok r` (the function
returns the integer `r`). -/
inductive SearchOutcome where
  | timeout : SearchOutcome
  | error : SearchOutcome
  | ok : Int → SearchOutcome
deriving DecidableEq, Repr

/-! ### `compute_lps`

The Python function preallocates `lps = [0] * len(pattern)` and writes
`lps[i]` exactly when the cursor `i` advances past position `i`; it only ever
reads `lps[length - 1]` with `length - 1 < i`.  We therefore model the state
as the already-written prefix `lps` (so the Python cursor `i` is
`lps.length`), appending an entry whenever the Python code writes one.
Position `0` is never touched by the loop and stays `0`, hence the initial
state `[0]` (Python starts at `i = 1`). -/

def lpsLoop (pattern : List Char) : Nat → List Nat → Nat → Option (List Nat)
  | 0, _, _ => none
  | fuel + 1, lps, length =>
    if lps.length < pattern.length then
      match pattern[lps.length]?, pattern[length]? with
      | some pi, some pl =>
        if pi = pl then
          lpsLoop pattern fuel (lps ++ [length + 1]) (length + 1)
        else if length ≠ 0 then
          lpsLoop pattern fuel lps (lps.getD (length - 1) 0)
        else
          lpsLoop pattern fuel (lps ++ [0]) 0
      | _, _ => none
    else
      some lps

/-- `compute_lps` from `task_3.py`.  `none` would mean the fuel `2*m + 1` ran
out; it is proven below that this never happens. -/
def compute_lps (pattern : List Char) : Option (List Nat) :=
  if pattern.length = 0 then some []
  else lpsLoop pattern (2 * pattern.length + 1) [0] 0

/-! ### `kmp_search` -/

/-- One iteration of the `kmp_search` scan loop (executed under the guard
`i < N`).  `fail` is Python's `IndexError` (reachable exactly when the
pattern is empty: `pattern[0]` on an empty string). -/
inductive KmpStep where
  | next : Nat → Nat → KmpStep
  | found : Int → KmpStep
  | fail : KmpStep
deriving DecidableEq, Repr

def kmpStep (pattern main_string : List Char) (lps : List Nat) (i j : Nat) : KmpStep :=
  match pattern[j]?, main_string[i]? with
  | some pj, some si =>
    if pj = si then
      if j + 1 = pattern.length then KmpStep.found ((i : Int) + 1 - ((j : Int) + 1))
      else KmpStep.next (i + 1) (j + 1)
    else if j ≠ 0 then
      match lps[j - 1]? with
      | some fallback => KmpStep.next i fallback
      | none => KmpStep.fail
    else
      KmpStep.next (i + 1) j
  | _, _ => KmpStep.fail

def kmpLoop (pattern main_string : List Char) (lps : List Nat) :
    Nat → Nat → Nat → SearchOutcome
  | 0, _, _ => SearchOutcome.timeout
  | fuel + 1, i, j =>
    if i < main_string.length then
      match kmpStep pattern main_string lps i j with
      | KmpStep.found r => SearchOutcome.ok r
      | KmpStep.fail => SearchOutcome.error
      | KmpStep.next i2 j2 => kmpLoop pattern main_string lps fuel i2 j2
    else
      SearchOutcome.ok (-1)

/-- `kmp_search` from `task_3.py`. -/
def kmp_search (main_string pattern : List Char) : SearchOutcome :=
  match compute_lps pattern with
  | none => SearchOutcome.timeout
  | some lps => kmpLoop pattern main_string lps (2 * main_string.length + 1) 0 0

/-- Instrumented twin of `kmpLoop`: the number of iterations of the scan loop
that start executing. -/
def kmpLoopCount (pattern main_string : List Char) (lps : List Nat) :
    Nat → Nat → Nat → Nat
  | 0, _, _ => 0
  | fuel + 1, i, j =>
    if i < main_string.length then
      match kmpStep pattern main_string lps i j with
      | KmpStep.next i2 j2 => kmpLoopCount pattern main_string lps fuel i2 j2 + 1
      | _ => 1
    else 0

def kmp_iterations (main_string pattern : List Char) : Nat :=
  match compute_lps pattern with
  | none => 0
  | some lps => kmpLoopCount pattern main_string lps (2 * main_string.length + 1) 0 0

/-! ### `build_shift_table` and `boyer_moore_search`

The Python dict is modelled as a function `Char → Option Nat`;
`table.get(c, default)` is `(table c).getD default`. -/

/-- The loop `for i, char in enumerate(pattern[:-1]): table[char] = length - i - 1`. -/
def buildShiftLoop (length : Nat) : List Char → Nat → (Char → Option Nat) → Char → Option Nat
  | [], _, table => table
  | char :: rest, i, table =>
    buildShiftLoop length rest (i + 1)
      (fun c => if c = char then some (length - i - 1) else table c)

/-- `build_shift_table` from `task_3.py`.  On the empty pattern,
`pattern[-1]` raises `IndexError`, modelled as `none`.  The final
`table.setdefault(pattern[-1], length)` inserts only when the key is absent. -/
def build_shift_table (pattern : List Char) : Option (Char → Option Nat) :=
  match pattern.getLast? with
  | none => none
  | some last =>
    let table := buildShiftLoop pattern.length pattern.dropLast 0 (fun _ => none)
    match table last with
    | some _ => some table
    | none => some (fun c => if c = last then some pattern.length else table c)

/-- The inner right-to-left scan `j = m - 1; while j >= 0 and text[i+j] == pattern[j]`.
The argument is `j + 1` (number of positions still to compare), so the Python
exit condition `j < 0` is the `0` case.  All indices are in range on every
call made by `bmLoop` (the window guard gives `i + m ≤ n`), so the `getD`
defaults are never consulted. -/
def bmCheck (text pattern : List Char) (i : Nat) : Nat → Bool
  | 0 => true
  | j + 1 =>
    if text.getD (i + j) 'a' = pattern.getD j 'a' then bmCheck text pattern i j
    else false

def bmLoop (text pattern : List Char) (table : Char → Option Nat) :
    Nat → Nat → SearchOutcome
  | 0, _ => SearchOutcome.timeout
  | fuel + 1, i =>
    if (i : Int) ≤ (text.length : Int) - (pattern.length : Int) then
      if bmCheck text pattern i pattern.length then SearchOutcome.ok (i : Int)
      else
        bmLoop text pattern table fuel
          (i + (table (text.getD (i + pattern.length - 1) 'a')).getD pattern.length)
    else
      SearchOutcome.ok (-1)

/-- `boyer_moore_search` from `task_3.py`. -/
def boyer_moore_search (text pattern : List Char) : SearchOutcome :=
  match build_shift_table pattern with
  | none => SearchOutcome.error
  | some table => bmLoop text pattern table (text.length + 2) 0

/-- Instrumented twin of `bmLoop`: number of window positions examined. -/
def bmLoopCount (text pattern : List Char) (table : Char → Option Nat) :
    Nat → Nat → Nat
  | 0, _ => 0
  | fuel + 1, i =>
    if (i : Int) ≤ (text.length : Int) - (pattern.length : Int) then
      if bmCheck text pattern i pattern.length then 1
      else
        bmLoopCount text pattern table fuel
          (i + (table (text.getD (i + pattern.length - 1) 'a')).getD pattern.length) + 1
    else 0

def bm_iterations (text pattern : List Char) : Nat :=
  match build_shift_table pattern with
  | none => 0
  | some table => bmLoopCount text pattern table (text.length + 2) 0

/-! ### `polynomial_hash` and `rabin_karp_search` -/

/-- The loop `for i, char in enumerate(s)` of `polynomial_hash`; the first
list argument is the remaining characters, `i` the current index. -/
def polyHashLoop (n base modulus : Nat) : List Char → Nat → Nat → Nat
  | [], _, hash_value => hash_value
  | char :: rest, i, hash_value =>
    polyHashLoop n base modulus rest (i + 1)
      ((hash_value + char.toNat * (base ^ (n - i - 1) % modulus)) % modulus)

/-- `polynomial_hash` from `task_3.py` (the source computes
`pow(base, n - i - 1) % modulus` with the plain two-argument `pow`). -/
def polynomial_hash (s : List Char) (base modulus : Nat) : Nat :=
  polyHashLoop s.length base modulus s 0 0

/-- Modelled from CPython's built-in three-argument `pow`: for a negative
exponent it uses the modular inverse of the base and raises `ValueError`
(here `none`) when the inverse does not exist.  `rabin_karp_search` hits the
negative-exponent case exactly when the pattern is empty. -/
def modInv (b m : Nat) : Option Nat :=
  (List.range m).find? (fun x => b * x % m == 1)

def pyPowMod (b : Nat) (e : Int) (m : Nat) : Option Nat :=
  if 0 ≤ e then some (b ^ e.toNat % m)
  else (modInv b m).map (fun x => x ^ (-e).toNat % m)

/-- The two rolling-hash update assignments at the bottom of the
`rabin_karp_search` loop, composed.  Lean's `%` on `Int` is Euclidean
(non-negative remainder for a positive modulus), matching Python's `%`. -/
def rkNext (modulus base h_multiplier : Nat) (h : Int) (outChar inChar : Char) : Int :=
  ((h - (outChar.toNat : Int) * (h_multiplier : Int)) % (modulus : Int) * (base : Int)
      + (inChar.toNat : Int)) % (modulus : Int)

/-- The `for i in range(n - m + 1)` loop of `rabin_karp_search`; the first
`Nat` argument is the number of remaining iterations.  The `getD` indices are
in range whenever the update guard `i < n - m` holds, as in the source. -/
def rkLoop (main_string substring : List Char) (substring_hash h_multiplier base modulus : Nat) :
    Nat → Nat → Int → SearchOutcome
  | 0, _, _ => SearchOutcome.ok (-1)
  | count + 1, i, current_slice_hash =>
    if (substring_hash : Int) = current_slice_hash
        ∧ (main_string.drop i).take substring.length = substring then
      SearchOutcome.ok (i : Int)
    else if (i : Int) < (main_string.length : Int) - (substring.length : Int) then
      rkLoop main_string substring substring_hash h_multiplier base modulus count (i + 1)
        (rkNext modulus base h_multiplier current_slice_hash
          (main_string.getD i 'a') (main_string.getD (i + substring.length) 'a'))
    else
      rkLoop main_string substring substring_hash h_multiplier base modulus count (i + 1)
        current_slice_hash

/-- `rabin_karp_search` from `task_3.py` (`base = 256`, `modulus = 101`). -/
def rabin_karp_search (main_string substring : List Char) : SearchOutcome :=
  match pyPowMod 256 ((substring.length : Int) - 1) 101 with
  | none => SearchOutcome.error
  | some h_multiplier =>
    rkLoop main_string substring (polynomial_hash substring 256 101) h_multiplier 256 101
      (main_string.length + 1 - substring.length) 0
      ((polynomial_hash (main_string.take substring.length) 256 101 : Int))

/-- Iterations of the Rabin–Karp `for` loop actually executed. -/
def rkLoopCount (main_string substring : List Char) (substring_hash h_multiplier base modulus : Nat) :
    Nat → Nat → Int → Nat
  | 0, _, _ => 0
  | count + 1, i, current_slice_hash =>
    if (substring_hash : Int) = current_slice_hash
        ∧ (main_string.drop i).take substring.length = substring then 1
    else if (i : Int) < (main_string.length : Int) - (substring.length : Int) then
      rkLoopCount main_string substring substring_hash h_multiplier base modulus count (i + 1)
        (rkNext modulus base h_multiplier current_slice_hash
          (main_string.getD i 'a') (main_string.getD (i + substring.length) 'a')) + 1
    else
      rkLoopCount main_string substring substring_hash h_multiplier base modulus count (i + 1)
        current_slice_hash + 1

def rk_iterations (main_string substring : List Char) : Nat :=
  match pyPowMod 256 ((substring.length : Int) - 1) 101 with
  | none => 0
  | some h_multiplier =>
    rkLoopCount main_string substring (polynomial_hash substring 256 101) h_multiplier 256 101
      (main_string.length + 1 - substring.length) 0
      ((polynomial_hash (main_string.take substring.length) 256 101 : Int))

/-! ### Specification-side definitions (from the spec's words) -/

/-- `pattern` occurs in `text` starting at index `i`. -/
def occursAt (text pattern : List Char) (i : Nat) : Prop :=
  (text.drop i).take pattern.length = pattern

instance (text pattern : List Char) (i : Nat) : Decidable (occursAt text pattern i) :=
  inferInstanceAs (Decidable (_ = _))

/-- The lowest index at which `pattern` occurs in `text`, if any.  Occurrences
need `i + pattern.length ≤ text.length` except for the empty pattern, which
occurs at `0`; the range bound `text.length + 1` covers both. -/
def firstOcc (text pattern : List Char) : Option Nat :=
  (List.range (text.length + 1)).find? (fun i => decide (occursAt text pattern i))

/-- The result the spec demands of every matcher: the first occurrence index,
or the sentinel `-1`. -/
def matchResult (text pattern : List Char) : SearchOutcome :=
  match firstOcc text pattern with
  | some i => SearchOutcome.ok (i : Int)
  | none => SearchOutcome.ok (-1)

/-- `k` is the length of a proper border of `s`: a strict prefix of `s` that
is also a suffix of `s`. -/
def IsBorder (s : List Char) (k : Nat) : Prop :=
  k < s.length ∧ s.take k = s.drop (s.length - k)

instance (s : List Char) (k : Nat) : Decidable (IsBorder s k) :=
  inferInstanceAs (Decidable (_ ∧ _))

/-- The length of the longest proper border of `s` (`0` for `s = []`): the
value the spec assigns to `LPS[i]` for `s = pattern[0..i]`. -/
def maxBorder (s : List Char) : Nat :=
  Nat.findGreatest (fun k => s.take k = s.drop (s.length - k)) (s.length - 1)

/-- Index of the last occurrence of `c` in `u`, if any. -/
def lastIdx? : List Char → Char → Option Nat
  | [], _ => none
  | a :: u, c =>
    match lastIdx? u c with
    | some j => some (j + 1)
    | none => if a = c then some 0 else none

/-- The shift table of `pattern`, with the build failure (empty pattern)
defaulted away, for stating lookup facts. -/
def shiftTableOf (pattern : List Char) : Char → Option Nat :=
  (build_shift_table pattern).getD (fun _ => none)

/-- The polynomial value `Σ s[q] * 256^(len-1-q)` with no modulus, used to
relate `polynomial_hash` to the rolling update. -/
def rawHash : List Char → Nat
  | [] => 0
  | c :: rest => c.toNat * 256 ^ rest.length + rawHash rest

/-! ## Lemmas about `occursAt` and `firstOcc` -/

theorem occursAt_le {text pattern : List Char} {i : Nat} (hp : pattern ≠ [])
    (h : occursAt text pattern i) : i + pattern.length ≤ text.length := by
  have hlen : ((text.drop i).take pattern.length).length = pattern.length := by
    rw [h]
  simp only [List.length_take, List.length_drop] at hlen
  have hp0 : 0 < pattern.length := List.length_pos.mpr hp
  omega

theorem range_find?_eq_some {P : Nat → Bool} {k i : Nat} :
    (List.range k).find? P = some i ↔ i < k ∧ P i = true ∧ ∀ j, j < i → P j ≠ true := by
  induction k generalizing i with
  | zero => simp [List.range_zero]
  | succ k ih =>
    rw [List.range_succ, List.find?_append]
    cases hk : (List.range k).find? P with
    | some j =>
      have hj := ih.mp hk
      simp only [Option.or]
      constructor
      · rintro h
        injection h with h
        subst h
        exact ⟨Nat.lt_succ_of_lt hj.1, hj.2.1, hj.2.2⟩
      · rintro ⟨hi, hPi, hmin⟩
        rcases Nat.lt_or_ge i j with hij | hij
        · exact absurd hPi (hj.2.2 i hij)
        rcases Nat.lt_or_ge j i with hji | hji
        · exact absurd hj.2.1 (hmin j hji)
        have : i = j := Nat.le_antisymm hji hij
        rw [this]
    | none =>
      have hnone := List.find?_eq_none.mp hk
      simp only [Option.or]
      constructor
      · intro h
        rcases List.find?_cons_eq_some.mp h with ⟨hPk, hk'⟩ | ⟨_, hfalse⟩
        · subst hk'
          refine ⟨Nat.lt_succ_self k, hPk, ?_⟩
          intro j hj
          exact hnone j (List.mem_range.mpr hj)
        · simp [List.find?] at hfalse
      · rintro ⟨hi, hPi, hmin⟩
        have hik : i = k := by
          rcases Nat.lt_or_ge i k with h | h
          · exact absurd hPi (hnone i (List.mem_range.mpr h))
          · omega
        subst hik
        simp [List.find?_cons, hPi]

theorem firstOcc_eq_some_iff {text pattern : List Char} {i : Nat} :
    firstOcc text pattern = some i ↔
      i < text.length + 1 ∧ occursAt text pattern i ∧
        ∀ j, j < i → ¬ occursAt text pattern j := by
  unfold firstOcc
  rw [range_find?_eq_some]
  simp [decide_eq_true_eq]

theorem firstOcc_eq_none_iff {text pattern : List Char} (hp : pattern ≠ []) :
    firstOcc text pattern = none ↔ ∀ i, ¬ occursAt text pattern i := by
  unfold firstOcc
  rw [List.find?_eq_none]
  constructor
  · intro h i hocc
    have hle := occursAt_le hp hocc
    have hp0 : 0 < pattern.length := List.length_pos.mpr hp
    have hmem : i ∈ List.range (text.length + 1) := List.mem_range.mpr (by omega)
    have := h i hmem
    simp only [decide_eq_true_eq] at this
    exact this hocc
  · intro h i _
    simpa using h i

theorem firstOcc_eq_some_of {text pattern : List Char} {i : Nat} (hp : pattern ≠ [])
    (hocc : occursAt text pattern i) (hmin : ∀ j, j < i → ¬ occursAt text pattern j) :
    firstOcc text pattern = some i := by
  refine firstOcc_eq_some_iff.mpr ⟨?_, hocc, hmin⟩
  have := occursAt_le hp hocc
  have hp0 : 0 < pattern.length := List.length_pos.mpr hp
  omega

/-- For a nonempty pattern longer than the text there is no occurrence. -/
theorem firstOcc_eq_none_of_long {text pattern : List Char}
    (h : text.length < pattern.length) : firstOcc text pattern = none := by
  have hp : pattern ≠ [] := by
    intro hnil
    rw [hnil] at h
    simp at h
  rw [firstOcc_eq_none_iff hp]
  intro i hocc
  have := occursAt_le hp hocc
  omega

/-! ## The polynomial hash and the rolling update -/

theorem rawHash_cons (c : Char) (rest : List Char) :
    rawHash (c :: rest) = c.toNat * 256 ^ rest.length + rawHash rest := rfl

theorem rawHash_append_singleton (xs : List Char) (c : Char) :
    rawHash (xs ++ [c]) = rawHash xs * 256 + c.toNat := by
  induction xs with
  | nil => simp [rawHash]
  | cons a xs ih =>
    simp only [List.cons_append, rawHash_cons, ih, List.length_append, List.length_cons,
      List.length_nil]
    ring

theorem add_mul_mod_aux (a c w r : Nat) :
    ((a + c * (w % 101)) % 101 + r) % 101 = (a + (c * w + r)) % 101 := by
  have h1 : (a + c * (w % 101)) % 101 + r ≡ a + c * w + r [MOD 101] :=
    ((Nat.mod_modEq _ _).trans (((Nat.mod_modEq w _).mul_left c).add_left a)).add_right r
  have h2 : a + c * w + r = a + (c * w + r) := by ring
  rw [← h2]
  exact h1

theorem polyHashLoop_eq (n : Nat) (rest : List Char) :
    ∀ (i acc : Nat), i + rest.length = n → acc < 101 →
      polyHashLoop n 256 101 rest i acc = (acc + rawHash rest) % 101 := by
  induction rest with
  | nil =>
    intro i acc _ hacc
    simp [polyHashLoop, rawHash, Nat.mod_eq_of_lt hacc]
  | cons c rest ih =>
    intro i acc hlen hacc
    have hwt : n - i - 1 = rest.length := by
      simp only [List.length_cons] at hlen
      omega
    have hstep : (i + 1) + rest.length = n := by
      simp only [List.length_cons] at hlen
      omega
    simp only [polyHashLoop, hwt]
    rw [ih (i + 1) _ hstep (Nat.mod_lt _ (by norm_num))]
    rw [rawHash_cons]
    exact add_mul_mod_aux acc c.toNat (256 ^ rest.length) (rawHash rest)

theorem polynomial_hash_eq (s : List Char) :
    polynomial_hash s 256 101 = rawHash s % 101 := by
  unfold polynomial_hash
  rw [polyHashLoop_eq s.length s 0 0 (by omega) (by norm_num)]
  simp

theorem polynomial_hash_lt (s : List Char) : polynomial_hash s 256 101 < 101 := by
  rw [polynomial_hash_eq]
  exact Nat.mod_lt _ (by norm_num)

/-- Decomposing the window at `i` into its head and the shared middle part. -/
theorem window_cons {t : List Char} {m i : Nat} (hm : 1 ≤ m) (hin : i + m ≤ t.length) :
    (t.drop i).take m = t.getD i 'a' :: (t.drop (i + 1)).take (m - 1) := by
  have hi : i < t.length := by omega
  have hgetD : t.getD i 'a' = t[i] := by
    rw [List.getD_eq_getElem?_getD, List.getElem?_eq_getElem hi]
    rfl
  have hm' : m = (m - 1) + 1 := by omega
  rw [hgetD, List.drop_eq_getElem_cons hi]
  conv_lhs => rw [hm']
  rw [List.take_succ_cons]

/-- Decomposing the window at `i + 1` into the shared middle part and its last
character. -/
theorem window_concat {t : List Char} {m i : Nat} (hm : 1 ≤ m) (hin : i + m < t.length) :
    (t.drop (i + 1)).take m = (t.drop (i + 1)).take (m - 1) ++ [t.getD (i + m) 'a'] := by
  have hm' : m = (m - 1) + 1 := by omega
  conv_lhs => rw [hm']
  rw [List.take_succ]
  have hidx : (t.drop (i + 1))[m - 1]? = some (t.getD (i + m) 'a') := by
    rw [List.getElem?_drop]
    have : i + 1 + (m - 1) = i + m := by omega
    rw [this]
    rw [List.getD_eq_getElem?_getD, List.getElem?_eq_getElem (by omega)]
    simp [List.getElem?_eq_getElem (show i + m < t.length by omega)]
  rw [hidx]
  simp

theorem rkNext_correct {t : List Char} {m i : Nat} (hm : 1 ≤ m) (hlt : i + m < t.length) :
    rkNext 101 256 (256 ^ (m - 1) % 101)
        ((polynomial_hash ((t.drop i).take m) 256 101 : Int))
        (t.getD i 'a') (t.getD (i + m) 'a')
      = ((polynomial_hash ((t.drop (i + 1)).take m) 256 101 : Int)) := by
  have hmid : ((t.drop (i + 1)).take (m - 1)).length = m - 1 := by
    simp only [List.length_take, List.length_drop]
    omega
  have hw : rawHash ((t.drop i).take m)
      = (t.getD i 'a').toNat * 256 ^ (m - 1) + rawHash ((t.drop (i + 1)).take (m - 1)) := by
    rw [window_cons hm (le_of_lt hlt), rawHash_cons, hmid]
  have hw' : rawHash ((t.drop (i + 1)).take m)
      = rawHash ((t.drop (i + 1)).take (m - 1)) * 256 + (t.getD (i + m) 'a').toNat := by
    rw [window_concat hm hlt, rawHash_append_singleton]
  rw [polynomial_hash_eq, polynomial_hash_eq, hw, hw']
  unfold rkNext
  push_cast [Int.natCast_mod]
  set O : Int := ((t.getD i 'a').toNat : Int) with hO
  set I : Int := ((t.getD (i + m) 'a').toNat : Int) with hI
  set R : Int := (rawHash ((t.drop (i + 1)).take (m - 1)) : Int) with hR
  set P : Int := (256 : Int) ^ (m - 1) with hP
  have e1 : (O * P + R) % 101 - O * (P % 101) ≡ (O * P + R) - O * P [ZMOD 101] :=
    (Int.mod_modEq _ 101).sub ((Int.mod_modEq P 101).mul_left O)
  have e2 : (O * P + R) - O * P = R := by ring
  have e3 : ((O * P + R) % 101 - O * (P % 101)) % 101 * 256 + I ≡ R * 256 + I [ZMOD 101] := by
    have := ((Int.mod_modEq ((O * P + R) % 101 - O * (P % 101)) 101).trans
      (e1.trans (by rw [e2]))).mul_right (256 : Int)
    exact this.add_right I
  exact e3.eq

/-! ## Correctness of `rabin_karp_search` -/

theorem rkLoop_eq_matchResult {t p : List Char} (hp : p ≠ []) (hmn : p.length ≤ t.length) :
    ∀ (count i : Nat), count + i = t.length + 1 - p.length →
      (∀ s, s < i → ¬ occursAt t p s) →
      rkLoop t p (polynomial_hash p 256 101) (256 ^ (p.length - 1) % 101) 256 101 count i
          ((polynomial_hash ((t.drop i).take p.length) 256 101 : Int))
        = matchResult t p := by
  have hm1 : 1 ≤ p.length := List.length_pos.mpr hp
  intro count
  induction count with
  | zero =>
    intro i hcnt hmin
    have hnone : firstOcc t p = none := by
      rw [firstOcc_eq_none_iff hp]
      intro s hocc
      have hle := occursAt_le hp hocc
      have : s < i := by omega
      exact hmin s this hocc
    simp [rkLoop, matchResult, hnone]
  | succ count ih =>
    intro i hcnt hmin
    by_cases hocc : occursAt t p i
    · have hcond : ((polynomial_hash p 256 101 : Nat) : Int)
          = ((polynomial_hash ((t.drop i).take p.length) 256 101 : Nat) : Int)
          ∧ (t.drop i).take p.length = p := by
        refine ⟨?_, hocc⟩
        rw [hocc]
      rw [rkLoop, if_pos hcond]
      have hfirst : firstOcc t p = some i := firstOcc_eq_some_of hp hocc hmin
      simp [matchResult, hfirst]
    · have hcond : ¬ (((polynomial_hash p 256 101 : Nat) : Int)
          = ((polynomial_hash ((t.drop i).take p.length) 256 101 : Nat) : Int)
          ∧ (t.drop i).take p.length = p) := by
        intro hc
        exact hocc hc.2
      rw [rkLoop, if_neg hcond]
      by_cases hlt : (i : Int) < (t.length : Int) - (p.length : Int)
      · have hlt' : i + p.length < t.length := by
          omega
        rw [if_pos hlt]
        rw [rkNext_correct hm1 hlt']
        apply ih
        · omega
        · intro s hs
          rcases Nat.lt_or_ge s i with h | h
          · exact hmin s h
          · have : s = i := by omega
            rw [this]
            exact hocc
      · rw [if_neg hlt]
        have hi : i = t.length - p.length := by omega
        have hc0 : count = 0 := by omega
        subst hc0
        have hnone : firstOcc t p = none := by
          rw [firstOcc_eq_none_iff hp]
          intro s hsocc
          have hle := occursAt_le hp hsocc
          rcases Nat.lt_or_ge s i with h | h
          · exact hmin s h hsocc
          · rcases Nat.lt_or_ge s (i + 1) with h2 | h2
            · have : s = i := by omega
              rw [this] at hsocc
              exact hocc hsocc
            · omega
        simp [rkLoop, matchResult, hnone]

theorem drop_zero_take (t : List Char) (m : Nat) : (t.drop 0).take m = t.take m := by
  simp

theorem pyPowMod_pos_len {m : Nat} (hm : 1 ≤ m) :
    pyPowMod 256 ((m : Int) - 1) 101 = some (256 ^ (m - 1) % 101) := by
  unfold pyPowMod
  rw [if_pos (show (0 : Int) ≤ (m : Int) - 1 by omega)]
  have h : ((m : Int) - 1).toNat = m - 1 := by omega
  rw [h]

theorem rabin_karp_eq_matchResult {t p : List Char} (hp : p ≠ []) :
    rabin_karp_search t p = matchResult t p := by
  have hm1 : 1 ≤ p.length := List.length_pos.mpr hp
  unfold rabin_karp_search
  rw [pyPowMod_pos_len hm1]
  rcases le_or_lt p.length t.length with hmn | hmn
  · have := rkLoop_eq_matchResult hp hmn (t.length + 1 - p.length) 0 (by omega)
      (by intro s hs; omega)
    rw [drop_zero_take] at this
    exact this
  · have hcnt : t.length + 1 - p.length = 0 := by omega
    rw [hcnt]
    have hnone : firstOcc t p = none := firstOcc_eq_none_of_long hmn
    simp [rkLoop, matchResult, hnone]

theorem rkLoop_ok_occurs {t p : List Char} {pH hm : Nat} :
    ∀ (count i : Nat) (h r : Int),
      rkLoop t p pH hm 256 101 count i h = SearchOutcome.ok r → 0 ≤ r →
      ∃ j : Nat, r = (j : Int) ∧ occursAt t p j := by
  intro count
  induction count with
  | zero =>
    intro i h r heq hr
    simp only [rkLoop, SearchOutcome.ok.injEq] at heq
    omega
  | succ count ih =>
    intro i h r heq hr
    simp only [rkLoop] at heq
    split at heq
    · rename_i hcond
      simp only [SearchOutcome.ok.injEq] at heq
      exact ⟨i, heq.symm, hcond.2⟩
    · split at heq
      · exact ih _ _ _ heq hr
      · exact ih _ _ _ heq hr

theorem rabin_karp_ok_occurs {t p : List Char} {r : Int}
    (h : rabin_karp_search t p = SearchOutcome.ok r) (hr : 0 ≤ r) :
    occursAt t p r.toNat := by
  unfold rabin_karp_search at h
  cases hpw : pyPowMod 256 ((p.length : Int) - 1) 101 with
  | none =>
    rw [hpw] at h
    simp at h
  | some hmul =>
    rw [hpw] at h
    obtain ⟨j, hj, hocc⟩ := rkLoop_ok_occurs _ _ _ _ h hr
    rw [hj]
    simpa using hocc

/-! ## Empty-pattern behavior -/

theorem pyPowMod_neg_one : pyPowMod 256 (-1) 101 = some 58 := by decide

theorem boyer_moore_search_empty_pattern (t : List Char) :
    boyer_moore_search t [] = SearchOutcome.error := rfl

theorem kmp_search_empty_pattern {t : List Char} (ht : t ≠ []) :
    kmp_search t [] = SearchOutcome.error := by
  obtain ⟨c, t', rfl⟩ := List.exists_cons_of_ne_nil ht
  simp [kmp_search, compute_lps, kmpLoop, kmpStep]

theorem rkLoop_succ (t p : List Char) (pH hm count i : Nat) (h : Int) :
    rkLoop t p pH hm 256 101 (count + 1) i h =
      if (pH : Int) = h ∧ (t.drop i).take p.length = p then SearchOutcome.ok (i : Int)
      else if (i : Int) < (t.length : Int) - (p.length : Int) then
        rkLoop t p pH hm 256 101 count (i + 1)
          (rkNext 101 256 hm h (t.getD i 'a') (t.getD (i + p.length) 'a'))
      else rkLoop t p pH hm 256 101 count (i + 1) h := rfl

theorem rabin_karp_search_empty_pattern (t : List Char) :
    rabin_karp_search t [] = SearchOutcome.ok 0 := by
  have hph : polynomial_hash [] 256 101 = 0 := rfl
  simp only [rabin_karp_search, List.length_nil, Nat.cast_zero, zero_sub, pyPowMod_neg_one,
    Nat.sub_zero, List.take_zero, hph]
  rw [rkLoop_succ, if_pos]
  · norm_num
  · exact ⟨rfl, by simp⟩

/-! ## The bad-character shift table -/

theorem buildShiftLoop_lookup (L : Nat) (u : List Char) :
    ∀ (i0 : Nat) (d : Char → Option Nat) (c : Char),
      buildShiftLoop L u i0 d c =
        match lastIdx? u c with
        | some j => some (L - (i0 + j) - 1)
        | none => d c := by
  induction u with
  | nil =>
    intro i0 d c
    rfl
  | cons a u ih =>
    intro i0 d c
    simp only [buildShiftLoop]
    rw [ih]
    cases hli : lastIdx? u c with
    | some j =>
      simp only [lastIdx?, hli]
      have : i0 + 1 + j = i0 + (j + 1) := by omega
      rw [this]
    | none =>
      simp only [lastIdx?, hli]
      by_cases hac : a = c
      · subst hac
        simp
      · have hca : ¬ c = a := fun h => hac h.symm
        simp [hac, hca]

theorem exists_getLast? {p : List Char} (hp : p ≠ []) : ∃ l, p.getLast? = some l := by
  cases hq : p.getLast? with
  | none => exact absurd (List.getLast?_eq_none_iff.mp hq) hp
  | some l => exact ⟨l, rfl⟩

theorem build_shift_table_eq {p : List Char} (hp : p ≠ []) :
    build_shift_table p = some (shiftTableOf p) := by
  obtain ⟨last, hl⟩ := exists_getLast? hp
  have h : build_shift_table p ≠ none := by
    unfold build_shift_table
    rw [hl]
    dsimp only
    cases h0 : buildShiftLoop p.length p.dropLast 0 (fun _ => none) last with
    | some v => simp
    | none => simp
  cases hb : build_shift_table p with
  | none => exact absurd hb h
  | some tbl =>
    unfold shiftTableOf
    rw [hb]
    rfl

theorem shiftTableOf_lookup {p : List Char} (hp : p ≠ []) (c : Char) :
    shiftTableOf p c =
      match lastIdx? p.dropLast c with
      | some j => some (p.length - j - 1)
      | none => if p.getLast? = some c then some p.length else none := by
  obtain ⟨last, hl⟩ := exists_getLast? hp
  unfold shiftTableOf build_shift_table
  rw [hl]
  dsimp only
  cases h0 : buildShiftLoop p.length p.dropLast 0 (fun _ => none) last with
  | some v =>
    dsimp only [Option.getD_some]
    rw [buildShiftLoop_lookup]
    cases hli : lastIdx? p.dropLast c with
    | some j =>
      dsimp only
      rw [Nat.zero_add]
    | none =>
      dsimp only
      have hne : ¬ (last = c) := by
        intro hlc
        subst hlc
        rw [buildShiftLoop_lookup] at h0
        rw [hli] at h0
        exact Option.noConfusion h0
      simp [hne]
  | none =>
    dsimp only [Option.getD_some]
    rw [buildShiftLoop_lookup] at h0
    by_cases hcl : c = last
    · subst hcl
      have hli : lastIdx? p.dropLast c = none := by
        cases hq : lastIdx? p.dropLast c with
        | some j =>
          rw [hq] at h0
          exact Option.noConfusion h0
        | none => rfl
      rw [buildShiftLoop_lookup, hli]
      simp [hl]
    · rw [buildShiftLoop_lookup]
      cases hli : lastIdx? p.dropLast c with
      | some j => simp [hcl]
      | none =>
        have hns : ¬ (some last = some c) := by
          intro h
          exact hcl (Option.some.inj h).symm
        simp [hcl, hns]

/-! ## Semantics of `lastIdx?` -/

theorem lastIdx?_spec {u : List Char} {c : Char} :
    (lastIdx? u c = none → ∀ k, k < u.length → u.getD k 'a' ≠ c) ∧
    (∀ j, lastIdx? u c = some j →
      j < u.length ∧ u.getD j 'a' = c ∧ ∀ k, j < k → k < u.length → u.getD k 'a' ≠ c) := by
  induction u with
  | nil =>
    constructor
    · intro _ k hk
      simp at hk
    · intro j hj
      exact Option.noConfusion hj
  | cons a u ih =>
    simp only [lastIdx?]
    cases hli : lastIdx? u c with
    | some j' =>
      have hj' := ih.2 j' hli
      constructor
      · intro h
        exact Option.noConfusion h
      · intro j hj
        injection hj with hj
        subst hj
        refine ⟨by simp; omega, by simpa using hj'.2.1, ?_⟩
        intro k hk1 hk2
        match k, hk1 with
        | k' + 1, _ =>
          simp only [List.getD_cons_succ]
          exact hj'.2.2 k' (by omega) (by simp at hk2; omega)
    | none =>
      by_cases hac : a = c
      · constructor
        · intro h
          rw [if_pos hac] at h
          exact Option.noConfusion h
        · intro j hj
          rw [if_pos hac] at hj
          injection hj with hj
          subst hj
          refine ⟨by simp, by simpa using hac, ?_⟩
          intro k hk1 hk2
          match k, hk1 with
          | k' + 1, _ =>
            simp only [List.getD_cons_succ]
            exact ih.1 hli k' (by simp at hk2; omega)
      · constructor
        · intro _ k hk
          match k with
          | 0 => simpa using hac
          | k' + 1 =>
            simp only [List.getD_cons_succ]
            exact ih.1 hli k' (by simp at hk; omega)
        · intro j hj
          rw [if_neg hac] at hj
          exact Option.noConfusion hj

theorem lastIdx?_ge {u : List Char} {c : Char} {q : Nat} (hq : q < u.length)
    (hc : u.getD q 'a' = c) : ∃ j, lastIdx? u c = some j ∧ q ≤ j := by
  cases hli : lastIdx? u c with
  | none => exact absurd hc (lastIdx?_spec.1 hli q hq)
  | some j =>
    have hj := lastIdx?_spec.2 j hli
    refine ⟨j, rfl, ?_⟩
    by_contra h
    push_neg at h
    exact hj.2.2 q h hq hc

theorem getD_dropLast {p : List Char} {q : Nat} (hq : q < p.length - 1) :
    p.dropLast.getD q 'a' = p.getD q 'a' := by
  rw [List.getD_eq_getElem?_getD, List.getD_eq_getElem?_getD, List.getElem?_dropLast,
    if_pos hq]

/-! ## Element-wise characterization of `occursAt` and `bmCheck` -/

theorem occursAt_iff_getD {t p : List Char} {i : Nat} (hin : i + p.length ≤ t.length) :
    occursAt t p i ↔ ∀ q, q < p.length → t.getD (i + q) 'a' = p.getD q 'a' := by
  unfold occursAt
  constructor
  · intro h q hq
    have hcon := congrArg (fun l => l.getD q 'a') h
    simp only [List.getD_eq_getElem?_getD] at hcon ⊢
    rw [List.getElem?_take, if_pos hq, List.getElem?_drop] at hcon
    exact hcon
  · intro h
    apply List.ext_getElem?
    intro q
    rcases Nat.lt_or_ge q p.length with hq | hq
    · rw [List.getElem?_take, if_pos hq, List.getElem?_drop]
      have hq1 : i + q < t.length := by omega
      rw [List.getElem?_eq_getElem hq1, List.getElem?_eq_getElem hq]
      have hval := h q hq
      simp only [List.getD_eq_getElem?_getD, List.getElem?_eq_getElem hq1,
        List.getElem?_eq_getElem hq, Option.getD_some] at hval
      exact congrArg some hval
    · rw [List.getElem?_take, if_neg (by omega), List.getElem?_eq_none hq]

theorem bmCheck_eq_true_iff {t p : List Char} {i : Nat} :
    ∀ k, (bmCheck t p i k = true ↔ ∀ q, q < k → t.getD (i + q) 'a' = p.getD q 'a') := by
  intro k
  induction k with
  | zero => simp [bmCheck]
  | succ k ih =>
    simp only [bmCheck]
    by_cases h : t.getD (i + k) 'a' = p.getD k 'a'
    · rw [if_pos h, ih]
      constructor
      · intro hall q hq
        rcases Nat.lt_or_ge q k with h1 | h1
        · exact hall q h1
        · have hqk : q = k := by omega
          rw [hqk]
          exact h
      · intro hall q hq
        exact hall q (by omega)
    · rw [if_neg h]
      simp only [Bool.false_eq_true, false_iff]
      intro hall
      exact h (hall k (by omega))

/-! ## Correctness of `boyer_moore_search` -/

theorem shiftTableOf_getD_bounds {p : List Char} (hp : p ≠ []) (c : Char) :
    1 ≤ (shiftTableOf p c).getD p.length ∧ (shiftTableOf p c).getD p.length ≤ p.length := by
  have hm : 1 ≤ p.length := List.length_pos.mpr hp
  rw [shiftTableOf_lookup hp]
  cases hli : lastIdx? p.dropLast c with
  | some j =>
    have hj := (lastIdx?_spec.2 j hli).1
    rw [List.length_dropLast] at hj
    simp only [Option.getD_some]
    omega
  | none =>
    by_cases hcl : p.getLast? = some c
    · simp only [if_pos hcl, Option.getD_some]
      omega
    · simp only [if_neg hcl, Option.getD_none]
      omega

/-- The Horspool safety argument: the bad-character shift taken after a
mismatch at window `i` skips no occurrence of the pattern. -/
theorem bm_shift_safe {t p : List Char} (hp : p ≠ []) {i k : Nat}
    (hk1 : 1 ≤ k)
    (hk2 : k < (shiftTableOf p (t.getD (i + p.length - 1) 'a')).getD p.length) :
    ¬ occursAt t p (i + k) := by
  intro hocc
  have hm : 1 ≤ p.length := List.length_pos.mpr hp
  have hlen := occursAt_le hp hocc
  have hkm : k ≤ p.length - 1 := by
    have := (shiftTableOf_getD_bounds hp (t.getD (i + p.length - 1) 'a')).2
    omega
  have helem := (occursAt_iff_getD (by omega)).mp hocc
  have hq : p.length - 1 - k < p.length := by omega
  have hgq := helem _ hq
  have hidx : i + k + (p.length - 1 - k) = i + p.length - 1 := by omega
  rw [hidx] at hgq
  have hpq : p.dropLast.getD (p.length - 1 - k) 'a' = t.getD (i + p.length - 1) 'a' := by
    rw [getD_dropLast (by omega)]
    exact hgq.symm
  obtain ⟨j, hj, hqj⟩ := lastIdx?_ge (by rw [List.length_dropLast]; omega) hpq
  have hjlt : j < p.length - 1 := by
    have := (lastIdx?_spec.2 j hj).1
    rw [List.length_dropLast] at this
    omega
  rw [shiftTableOf_lookup hp, hj] at hk2
  simp only [Option.getD_some] at hk2
  omega

theorem bmLoop_eq_matchResult {t p : List Char} (hp : p ≠ []) :
    ∀ (fuel i : Nat), (t.length + 1 - p.length) - i < fuel →
      (∀ s, s < i → ¬ occursAt t p s) →
      bmLoop t p (shiftTableOf p) fuel i = matchResult t p := by
  have hm : 1 ≤ p.length := List.length_pos.mpr hp
  intro fuel
  induction fuel with
  | zero =>
    intro i hfuel _
    omega
  | succ fuel ih =>
    intro i hfuel hmin
    by_cases hg : (i : Int) ≤ (t.length : Int) - (p.length : Int)
    · have hin : i + p.length ≤ t.length := by omega
      rw [bmLoop, if_pos hg]
      by_cases hchk : bmCheck t p i p.length = true
      · rw [if_pos hchk]
        have hocc : occursAt t p i := by
          rw [occursAt_iff_getD hin]
          exact (bmCheck_eq_true_iff p.length).mp hchk
        have hfirst : firstOcc t p = some i := firstOcc_eq_some_of hp hocc hmin
        simp [matchResult, hfirst]
      · rw [if_neg hchk]
        have hnocc : ¬ occursAt t p i := by
          intro hocc
          exact hchk ((bmCheck_eq_true_iff p.length).mpr ((occursAt_iff_getD hin).mp hocc))
        have hsb := shiftTableOf_getD_bounds hp (t.getD (i + p.length - 1) 'a')
        apply ih
        · omega
        · intro s hs
          rcases Nat.lt_or_ge s i with h1 | h1
          · exact hmin s h1
          rcases Nat.lt_or_ge s (i + 1) with h2 | h2
          · have hsi : s = i := by omega
            rw [hsi]
            exact hnocc
          · have hsk : s = i + (s - i) := by omega
            rw [hsk]
            exact bm_shift_safe hp (by omega) (by omega)
    · rw [bmLoop, if_neg hg]
      have hnone : firstOcc t p = none := by
        rw [firstOcc_eq_none_iff hp]
        intro s hocc
        have hle := occursAt_le hp hocc
        rcases Nat.lt_or_ge s i with h1 | h1
        · exact hmin s h1 hocc
        · omega
      simp [matchResult, hnone]

theorem boyer_moore_eq_matchResult {t p : List Char} (hp : p ≠ []) :
    boyer_moore_search t p = matchResult t p := by
  unfold boyer_moore_search
  rw [build_shift_table_eq hp]
  exact bmLoop_eq_matchResult hp (t.length + 2) 0 (by omega) (by intro s hs; omega)

/-! ## Borders and `maxBorder` -/

theorem getD_take_lt {p : List Char} {i q : Nat} (hq : q < i) :
    (p.take i).getD q 'a' = p.getD q 'a' := by
  rw [List.getD_eq_getElem?_getD, List.getD_eq_getElem?_getD, List.getElem?_take, if_pos hq]

theorem isBorder_zero {s : List Char} (hs : s ≠ []) : IsBorder s 0 :=
  ⟨List.length_pos.mpr hs, by simp⟩

theorem maxBorder_isBorder {s : List Char} (hs : s ≠ []) : IsBorder s (maxBorder s) := by
  have hl : 1 ≤ s.length := List.length_pos.mpr hs
  constructor
  · have hle := Nat.findGreatest_le (P := fun k => s.take k = s.drop (s.length - k))
      (s.length - 1)
    unfold maxBorder
    omega
  · unfold maxBorder
    exact Nat.findGreatest_spec (P := fun k => s.take k = s.drop (s.length - k)) (m := 0)
      (by omega) (by simp)

theorem le_maxBorder {s : List Char} {k : Nat} (h : IsBorder s k) : k ≤ maxBorder s := by
  obtain ⟨h1, h2⟩ := h
  unfold maxBorder
  exact Nat.le_findGreatest (by omega) h2

theorem maxBorder_lt {s : List Char} (hs : s ≠ []) : maxBorder s < s.length :=
  (maxBorder_isBorder hs).1

theorem maxBorder_eq_of {s : List Char} {k : Nat} (hb : IsBorder s k)
    (hmax : ∀ b, IsBorder s b → b ≤ k) : maxBorder s = k := by
  have hs : s ≠ [] := by
    intro hnil
    rw [hnil] at hb
    exact absurd hb.1 (by simp)
  exact le_antisymm (hmax _ (maxBorder_isBorder hs)) (le_maxBorder hb)

/-- A shorter border is a border of a longer border. -/
theorem border_of_border {s : List Char} {b1 b2 : Nat} (h1 : IsBorder s b1)
    (h2 : IsBorder s b2) (h12 : b1 < b2) : IsBorder (s.take b2) b1 := by
  obtain ⟨hb1, he1⟩ := h1
  obtain ⟨hb2, he2⟩ := h2
  refine ⟨by rw [List.length_take]; omega, ?_⟩
  rw [List.take_take, min_eq_left (le_of_lt h12)]
  rw [List.length_take, min_eq_left (le_of_lt hb2)]
  rw [he2, List.drop_drop]
  have harith : s.length - b2 + (b2 - b1) = s.length - b1 := by omega
  rw [harith]
  exact he1

/-- A border of a border is a border of the whole. -/
theorem border_trans {s : List Char} {b1 b2 : Nat} (h2 : IsBorder s b2)
    (h1 : IsBorder (s.take b2) b1) : IsBorder s b1 := by
  obtain ⟨hb2, he2⟩ := h2
  obtain ⟨hb1, he1⟩ := h1
  rw [List.length_take, min_eq_left (le_of_lt hb2)] at hb1 he1
  refine ⟨by omega, ?_⟩
  have hl : s.take b1 = (s.take b2).take b1 := by
    rw [List.take_take, min_eq_left (le_of_lt hb1)]
  rw [hl, he1, he2, List.drop_drop]
  have harith : s.length - b2 + (b2 - b1) = s.length - b1 := by omega
  rw [harith]

/-- Element-wise characterization of a proper border of the length-`i`
prefix of `p`. -/
theorem borderPrefix_iff {p : List Char} {i k : Nat} (hi : i ≤ p.length) :
    IsBorder (p.take i) k ↔
      k < i ∧ ∀ q, q < k → p.getD q 'a' = p.getD (i - k + q) 'a' := by
  unfold IsBorder
  rw [List.length_take, min_eq_left hi]
  constructor
  · rintro ⟨hk, he⟩
    refine ⟨hk, ?_⟩
    intro q hq
    have hcon := congrArg (fun l => l.getD q 'a') he
    simp only [List.getD_eq_getElem?_getD] at hcon
    rw [List.getElem?_take, if_pos hq, List.getElem?_drop, List.getElem?_take,
      List.getElem?_take] at hcon
    rw [if_pos (show i - k + q < i by omega), if_pos (show q < i by omega)] at hcon
    simp only [List.getD_eq_getElem?_getD]
    exact hcon
  · rintro ⟨hk, he⟩
    refine ⟨hk, ?_⟩
    apply List.ext_getElem?
    intro q
    rcases Nat.lt_or_ge q k with hq | hq
    · rw [List.getElem?_take, if_pos hq, List.getElem?_drop, List.getElem?_take,
        List.getElem?_take, if_pos (show i - k + q < i by omega),
        if_pos (show q < i by omega)]
      have hq1 : q < p.length := by omega
      have hq2 : i - k + q < p.length := by omega
      rw [List.getElem?_eq_getElem hq1, List.getElem?_eq_getElem hq2]
      have hval := he q hq
      simp only [List.getD_eq_getElem?_getD, List.getElem?_eq_getElem hq1,
        List.getElem?_eq_getElem hq2, Option.getD_some] at hval
      exact congrArg some hval
    · rw [List.getElem?_take, if_neg (by omega)]
      have hlen2 : ((p.take i).drop (i - k)).length = k := by
        simp only [List.length_drop, List.length_take]
        omega
      rw [List.getElem?_eq_none (by omega)]

/-- Extending a border by one matching character. -/
theorem border_extend {p : List Char} {i k : Nat} (hi : i < p.length) :
    IsBorder (p.take (i + 1)) (k + 1) ↔
      IsBorder (p.take i) k ∧ p.getD k 'a' = p.getD i 'a' := by
  rw [borderPrefix_iff (by omega), borderPrefix_iff (by omega)]
  constructor
  · rintro ⟨hk, he⟩
    have hki : k < i := by omega
    refine ⟨⟨hki, ?_⟩, ?_⟩
    · intro q hq
      have := he q (by omega)
      have harith : i + 1 - (k + 1) + q = i - k + q := by omega
      rw [harith] at this
      exact this
    · have := he k (by omega)
      have harith : i + 1 - (k + 1) + k = i := by omega
      rw [harith] at this
      exact this
  · rintro ⟨⟨hki, he⟩, hc⟩
    refine ⟨by omega, ?_⟩
    intro q hq
    have harith : i + 1 - (k + 1) + q = i - k + q := by omega
    rw [harith]
    rcases Nat.lt_or_ge q k with h1 | h1
    · exact he q h1
    · have hqk : q = k := by omega
      rw [hqk]
      have harith2 : i - k + k = i := by omega
      rw [harith2]
      exact hc

theorem take_one_ne_nil {p : List Char} (hp : p ≠ []) : p.take 1 ≠ [] := by
  intro h
  have h1 := congrArg List.length h
  rw [List.length_take] at h1
  have h2 := List.length_pos.mpr hp
  simp only [List.length_nil] at h1
  omega

theorem maxBorder_take_one {p : List Char} (hp : p ≠ []) : maxBorder (p.take 1) = 0 := by
  unfold maxBorder
  rw [List.length_take, min_eq_left (List.length_pos.mpr hp)]
  rfl

/-! ## Correctness of `compute_lps` -/

theorem getD_append_lt {acc : List Nat} {x k : Nat} (hk : k < acc.length) :
    (acc ++ [x]).getD k 0 = acc.getD k 0 := by
  rw [List.getD_eq_getElem?_getD, List.getD_eq_getElem?_getD, List.getElem?_append_left hk]

theorem getD_append_len {acc : List Nat} {x : Nat} :
    (acc ++ [x]).getD acc.length 0 = x := by
  rw [List.getD_eq_getElem?_getD, List.getElem?_concat_length]
  rfl

theorem getElem?_eq_some_getD {p : List Char} {i : Nat} (hi : i < p.length) :
    p[i]? = some (p.getD i 'a') := by
  rw [List.getD_eq_getElem?_getD, List.getElem?_eq_getElem hi]
  rfl

theorem take_ne_nil_of_pos {p : List Char} {i : Nat} (hi : 1 ≤ i) (hp : p ≠ []) :
    p.take i ≠ [] := by
  intro hnil
  have h1 := congrArg List.length hnil
  rw [List.length_take] at h1
  have h2 := List.length_pos.mpr hp
  simp only [List.length_nil] at h1
  omega

theorem lpsLoop_succ (p : List Char) (fuel : Nat) (acc : List Nat) (len : Nat) :
    lpsLoop p (fuel + 1) acc len =
      if acc.length < p.length then
        match p[acc.length]?, p[len]? with
        | some pi, some pl =>
          if pi = pl then lpsLoop p fuel (acc ++ [len + 1]) (len + 1)
          else if len ≠ 0 then lpsLoop p fuel acc (acc.getD (len - 1) 0)
          else lpsLoop p fuel (acc ++ [0]) 0
        | _, _ => none
      else some acc := rfl

theorem lpsLoop_correct {p : List Char} :
    ∀ (fuel : Nat) (acc : List Nat) (len : Nat),
      1 ≤ acc.length → acc.length ≤ p.length →
      2 * (p.length - acc.length) + len < fuel →
      (∀ k, k < acc.length → acc.getD k 0 = maxBorder (p.take (k + 1))) →
      IsBorder (p.take acc.length) len →
      (∀ b, IsBorder (p.take acc.length) b →
          p.getD b 'a' = p.getD acc.length 'a' → b ≤ len) →
      ∃ l, lpsLoop p fuel acc len = some l ∧ l.length = p.length ∧
        ∀ k, k < p.length → l.getD k 0 = maxBorder (p.take (k + 1)) := by
  intro fuel
  induction fuel with
  | zero =>
    intro acc len h1 h2 hfuel _ _ _
    omega
  | succ fuel ih =>
    intro acc len h1 h2 hfuel hents hbord hmaxc
    by_cases hg : acc.length < p.length
    · have hlenlt : len < acc.length := by
        have := hbord.1
        rw [List.length_take, min_eq_left h2] at this
        exact this
      have hp1 : p[acc.length]? = some (p.getD acc.length 'a') := getElem?_eq_some_getD hg
      have hp2 : p[len]? = some (p.getD len 'a') := getElem?_eq_some_getD (by omega)
      rw [lpsLoop_succ, if_pos hg, hp1, hp2]
      dsimp only
      by_cases hc : p.getD acc.length 'a' = p.getD len 'a'
      · rw [if_pos hc]
        have hext : IsBorder (p.take (acc.length + 1)) (len + 1) :=
          (border_extend hg).mpr ⟨hbord, hc.symm⟩
        have hmb : maxBorder (p.take (acc.length + 1)) = len + 1 := by
          apply maxBorder_eq_of hext
          intro b hb
          match b with
          | 0 => omega
          | b' + 1 =>
            obtain ⟨hb', hcb⟩ := (border_extend hg).mp hb
            have := hmaxc b' hb' hcb
            omega
        apply ih (acc ++ [len + 1]) (len + 1)
        · simp
        · simp only [List.length_append, List.length_cons, List.length_nil]
          omega
        · simp only [List.length_append, List.length_cons, List.length_nil]
          omega
        · intro k hk
          simp only [List.length_append, List.length_cons, List.length_nil] at hk
          rcases Nat.lt_or_ge k acc.length with hlt | hge
          · rw [getD_append_lt hlt]
            exact hents k hlt
          · have hkeq : k = acc.length := by omega
            rw [hkeq, getD_append_len, ← hkeq]
            rw [hkeq, hmb]
        · have hlen' : (acc ++ [len + 1]).length = acc.length + 1 := by simp
          rw [hlen']
          exact hext
        · intro b hb _
          simp only [List.length_append, List.length_cons, List.length_nil] at hb
          have hble := le_maxBorder hb
          rw [hmb] at hble
          exact hble
      · rw [if_neg hc]
        by_cases hlz : len ≠ 0
        · rw [if_pos hlz]
          have hlen1 : 1 ≤ len := by omega
          have hval : acc.getD (len - 1) 0 = maxBorder (p.take len) := by
            have hv := hents (len - 1) (by omega)
            have harith : len - 1 + 1 = len := by omega
            rw [harith] at hv
            exact hv
          have htln : p.take len ≠ [] := by
            apply take_ne_nil_of_pos hlen1
            intro hnil
            rw [hnil] at hg
            simp at hg
          have hmblt : maxBorder (p.take len) < len := by
            have hx := maxBorder_lt htln
            rw [List.length_take, min_eq_left (by omega)] at hx
            exact hx
          have heqtt : (p.take acc.length).take len = p.take len := by
            rw [List.take_take, min_eq_left (le_of_lt hlenlt)]
          have hbord' : IsBorder (p.take acc.length) (maxBorder (p.take len)) := by
            apply border_trans hbord
            rw [heqtt]
            exact maxBorder_isBorder htln
          apply ih acc (acc.getD (len - 1) 0) h1 h2
          · rw [hval]
            omega
          · exact hents
          · rw [hval]
            exact hbord'
          · intro b hb hcb
            rw [hval]
            have hble := hmaxc b hb hcb
            have hbne : b ≠ len := by
              intro hbeq
              rw [hbeq] at hcb
              exact hc hcb.symm
            have hblt : b < len := by omega
            have hbb := border_of_border hb hbord hblt
            rw [heqtt] at hbb
            exact le_maxBorder hbb
        · rw [if_neg hlz]
          push_neg at hlz
          have htn1 : p.take (acc.length + 1) ≠ [] := by
            apply take_ne_nil_of_pos (by omega)
            intro hnil
            rw [hnil] at hg
            simp at hg
          have hmb0 : maxBorder (p.take (acc.length + 1)) = 0 := by
            apply maxBorder_eq_of (isBorder_zero htn1)
            intro b hb
            match b with
            | 0 => omega
            | b' + 1 =>
              obtain ⟨hb', hcb⟩ := (border_extend hg).mp hb
              have hble := hmaxc b' hb' hcb
              have hb0 : b' = 0 := by omega
              rw [hb0] at hcb
              rw [hlz] at hc
              exact absurd hcb.symm hc
          apply ih (acc ++ [0]) 0
          · simp
          · simp only [List.length_append, List.length_cons, List.length_nil]
            omega
          · simp only [List.length_append, List.length_cons, List.length_nil]
            omega
          · intro k hk
            simp only [List.length_append, List.length_cons, List.length_nil] at hk
            rcases Nat.lt_or_ge k acc.length with hlt | hge
            · rw [getD_append_lt hlt]
              exact hents k hlt
            · have hkeq : k = acc.length := by omega
              rw [hkeq, getD_append_len, ← hkeq]
              rw [hkeq, hmb0]
          · have hlen' : (acc ++ [0]).length = acc.length + 1 := by simp
            rw [hlen']
            exact isBorder_zero htn1
          · intro b hb _
            simp only [List.length_append, List.length_cons, List.length_nil] at hb
            have hble := le_maxBorder hb
            rw [hmb0] at hble
            exact hble
    · rw [lpsLoop_succ, if_neg hg]
      have hacc : acc.length = p.length := by omega
      exact ⟨acc, rfl, hacc, fun k hk => hents k (by omega)⟩

theorem compute_lps_some (p : List Char) :
    ∃ l, compute_lps p = some l ∧ l.length = p.length ∧
      ∀ k, k < p.length → l.getD k 0 = maxBorder (p.take (k + 1)) := by
  by_cases hp : p.length = 0
  · refine ⟨[], ?_, by rw [List.length_nil, hp], fun k hk => by omega⟩
    unfold compute_lps
    rw [if_pos hp]
  · have hpne : p ≠ [] := by
      intro h
      rw [h] at hp
      simp at hp
    unfold compute_lps
    rw [if_neg hp]
    apply lpsLoop_correct (2 * p.length + 1) [0] 0
    · simp
    · simp only [List.length_cons, List.length_nil]
      omega
    · simp only [List.length_cons, List.length_nil]
      omega
    · intro k hk
      simp only [List.length_cons, List.length_nil] at hk
      have hk0 : k = 0 := by omega
      rw [hk0]
      have : maxBorder (p.take (0 + 1)) = 0 := by
        rw [Nat.zero_add]
        exact maxBorder_take_one hpne
      rw [this]
      rfl
    · have h1 : ([0] : List Nat).length = 1 := rfl
      rw [h1]
      exact isBorder_zero (take_one_ne_nil hpne)
    · intro b hb _
      have hx := hb.1
      simp only [List.length_take, List.length_singleton] at hx
      omega

/-! ## Correctness of `kmp_search` -/

theorem getD_nat_eq_some {l : List Nat} {i : Nat} (hi : i < l.length) :
    l[i]? = some (l.getD i 0) := by
  rw [List.getD_eq_getElem?_getD, List.getElem?_eq_getElem hi]
  rfl

theorem kmpLoop_succ (p t : List Char) (lps : List Nat) (fuel i j : Nat) :
    kmpLoop p t lps (fuel + 1) i j =
      if i < t.length then
        match kmpStep p t lps i j with
        | KmpStep.found r => SearchOutcome.ok r
        | KmpStep.fail => SearchOutcome.error
        | KmpStep.next i2 j2 => kmpLoop p t lps fuel i2 j2
      else SearchOutcome.ok (-1) := rfl

theorem kmpStep_eq {p t : List Char} {lps : List Nat} {i j : Nat}
    (hj : j < p.length) (hi : i < t.length) :
    kmpStep p t lps i j =
      if p.getD j 'a' = t.getD i 'a' then
        (if j + 1 = p.length then KmpStep.found ((i : Int) + 1 - ((j : Int) + 1))
         else KmpStep.next (i + 1) (j + 1))
      else if j ≠ 0 then
        (match lps[j - 1]? with
         | some fallback => KmpStep.next i fallback
         | none => KmpStep.fail)
      else KmpStep.next (i + 1) j := by
  unfold kmpStep
  rw [getElem?_eq_some_getD hj, getElem?_eq_some_getD hi]

/-- The text cursor of `kmp_search` never moves backward. -/
theorem kmpStep_monotone (p t : List Char) (lps : List Nat) (i j i2 j2 : Nat)
    (h : kmpStep p t lps i j = KmpStep.next i2 j2) : i ≤ i2 := by
  unfold kmpStep at h
  cases hpj : p[j]? with
  | none =>
    rw [hpj] at h
    exact KmpStep.noConfusion h
  | some pj =>
    cases hti : t[i]? with
    | none =>
      rw [hpj, hti] at h
      exact KmpStep.noConfusion h
    | some si =>
      rw [hpj, hti] at h
      dsimp only at h
      by_cases hc : pj = si
      · rw [if_pos hc] at h
        by_cases hjm : j + 1 = p.length
        · rw [if_pos hjm] at h
          exact KmpStep.noConfusion h
        · rw [if_neg hjm] at h
          injection h with h1 _
          omega
      · rw [if_neg hc] at h
        by_cases hj0 : j ≠ 0
        · rw [if_pos hj0] at h
          cases hlf : lps[j - 1]? with
          | some fb =>
            rw [hlf] at h
            injection h with h1 _
            omega
          | none =>
            rw [hlf] at h
            exact KmpStep.noConfusion h
        · rw [if_neg hj0] at h
          injection h with h1 _
          omega

theorem kmpLoop_eq_matchResult {t p : List Char} {lps : List Nat} (hp : p ≠ [])
    (hlpslen : lps.length = p.length)
    (hlps : ∀ k, k < p.length → lps.getD k 0 = maxBorder (p.take (k + 1))) :
    ∀ (fuel i j : Nat),
      2 * (t.length - i) + j < fuel →
      j < p.length → j ≤ i → i ≤ t.length →
      (∀ q, q < j → t.getD (i - j + q) 'a' = p.getD q 'a') →
      (∀ s, s < i - j → ¬ occursAt t p s) →
      kmpLoop p t lps fuel i j = matchResult t p := by
  intro fuel
  induction fuel with
  | zero =>
    intro i j hfuel _ _ _ _ _
    omega
  | succ fuel ih =>
    intro i j hfuel hjm hji hin hmatch hmin
    by_cases hgi : i < t.length
    · rw [kmpLoop_succ, if_pos hgi, kmpStep_eq hjm hgi]
      by_cases hc : p.getD j 'a' = t.getD i 'a'
      · rw [if_pos hc]
        by_cases hjlast : j + 1 = p.length
        · rw [if_pos hjlast]
          dsimp only
          have hocc : occursAt t p (i - j) := by
            rw [occursAt_iff_getD (by omega)]
            intro q hq
            rcases Nat.lt_or_ge q j with h1 | h1
            · exact hmatch q h1
            · have hqj : q = j := by omega
              rw [hqj]
              have harith : i - j + j = i := by omega
              rw [harith]
              exact hc.symm
          have hfirst : firstOcc t p = some (i - j) := firstOcc_eq_some_of hp hocc hmin
          simp only [matchResult, hfirst]
          have harith : (i : Int) + 1 - ((j : Int) + 1) = ((i - j : Nat) : Int) := by
            omega
          rw [harith]
        · rw [if_neg hjlast]
          dsimp only
          apply ih (i + 1) (j + 1)
          · omega
          · omega
          · omega
          · omega
          · intro q hq
            have harith : i + 1 - (j + 1) + q = i - j + q := by omega
            rw [harith]
            rcases Nat.lt_or_ge q j with h1 | h1
            · exact hmatch q h1
            · have hqj : q = j := by omega
              rw [hqj]
              have harith2 : i - j + j = i := by omega
              rw [harith2]
              exact hc.symm
          · intro s hs
            apply hmin
            omega
      · rw [if_neg hc]
        by_cases hj0 : j ≠ 0
        · rw [if_pos hj0]
          have hj1 : 1 ≤ j := by omega
          rw [getD_nat_eq_some (by omega)]
          dsimp only
          have hjv : lps.getD (j - 1) 0 = maxBorder (p.take j) := by
            have hv := hlps (j - 1) (by omega)
            have harith : j - 1 + 1 = j := by omega
            rw [harith] at hv
            exact hv
          rw [hjv]
          have htjn : p.take j ≠ [] := by
            apply take_ne_nil_of_pos hj1
            intro hnil
            rw [hnil] at hjm
            simp at hjm
          have hmbj : maxBorder (p.take j) < j := by
            have hx := maxBorder_lt htjn
            rw [List.length_take, min_eq_left (by omega)] at hx
            exact hx
          have hbmax := maxBorder_isBorder htjn
          have hbel := (borderPrefix_iff (by omega)).mp hbmax
          apply ih i (maxBorder (p.take j))
          · omega
          · omega
          · omega
          · omega
          · intro q hq
            have h1 : i - maxBorder (p.take j) + q = i - j + (j - maxBorder (p.take j) + q) := by
              omega
            rw [h1, hmatch _ (by omega)]
            exact (hbel.2 q hq).symm
          · intro s hs
            rcases Nat.lt_or_ge s (i - j) with h1 | h1
            · exact hmin s h1
            · intro hocc
              have hsle := occursAt_le hp hocc
              have helem := (occursAt_iff_getD (by omega)).mp hocc
              rcases Nat.lt_or_ge (i - j) s with h2 | h2
              · -- i - j < s < i - maxBorder: k := i - s is a border of p.take j
                -- longer than the maximal one
                have hk1 : 1 ≤ i - s := by omega
                have hklt : i - s < j := by omega
                have hkb : IsBorder (p.take j) (i - s) := by
                  rw [borderPrefix_iff (by omega)]
                  refine ⟨hklt, ?_⟩
                  intro q hq
                  have he1 : t.getD (s + q) 'a' = p.getD q 'a' := helem q (by omega)
                  have he2 : t.getD (i - j + (j - (i - s) + q)) 'a'
                      = p.getD (j - (i - s) + q) 'a' := hmatch _ (by omega)
                  have harith : i - j + (j - (i - s) + q) = s + q := by omega
                  rw [harith] at he2
                  rw [← he1, he2]
                have := le_maxBorder hkb
                omega
              · -- s = i - j : the mismatched character refutes the occurrence
                have hseq : s = i - j := by omega
                have he1 : t.getD (s + j) 'a' = p.getD j 'a' := helem j hjm
                have harith : s + j = i := by omega
                rw [harith] at he1
                exact hc (he1.symm)
        · rw [if_neg hj0]
          push_neg at hj0
          dsimp only
          apply ih (i + 1) j
          · omega
          · omega
          · omega
          · omega
          · intro q hq
            omega
          · intro s hs
            rcases Nat.lt_or_ge s (i - j) with h1 | h1
            · exact hmin s h1
            · intro hocc
              have hseq : s = i := by omega
              have hsle := occursAt_le hp hocc
              have helem := (occursAt_iff_getD (by omega)).mp hocc
              have he1 := helem 0 (by omega)
              rw [hseq] at he1
              rw [hj0] at hc
              have harith : i + 0 = i := by omega
              rw [harith] at he1
              exact hc he1.symm
    · rw [kmpLoop_succ, if_neg hgi]
      have hieq : i = t.length := by omega
      have hnone : firstOcc t p = none := by
        rw [firstOcc_eq_none_iff hp]
        intro s hocc
        rcases Nat.lt_or_ge s (i - j) with h1 | h1
        · exact hmin s h1 hocc
        · have hsle := occursAt_le hp hocc
          omega
      simp [matchResult, hnone]

theorem kmp_eq_matchResult {t p : List Char} (hp : p ≠ []) :
    kmp_search t p = matchResult t p := by
  obtain ⟨l, hl, hlen, hvals⟩ := compute_lps_some p
  unfold kmp_search
  rw [hl]
  have hm : 1 ≤ p.length := List.length_pos.mpr hp
  exact kmpLoop_eq_matchResult hp hlen hvals (2 * t.length + 1) 0 0 (by omega) (by omega)
    (by omega) (by omega) (by intro q hq; omega) (by intro s hs; omega)

/-! ## Remaining auxiliary facts -/

theorem matchResult_ne_timeout (t p : List Char) : matchResult t p ≠ SearchOutcome.timeout := by
  unfold matchResult
  cases firstOcc t p <;> simp

theorem matchResult_of_none {t p : List Char} (h : firstOcc t p = none) :
    matchResult t p = SearchOutcome.ok (-1) := by
  simp [matchResult, h]

theorem bmLoopCount_succ (t p : List Char) (table : Char → Option Nat) (fuel i : Nat) :
    bmLoopCount t p table (fuel + 1) i =
      if (i : Int) ≤ (t.length : Int) - (p.length : Int) then
        (if bmCheck t p i p.length then 1
         else bmLoopCount t p table fuel
           (i + (table (t.getD (i + p.length - 1) 'a')).getD p.length) + 1)
      else 0 := rfl

theorem bm_iterations_zero_of_long {t p : List Char} (h : t.length < p.length) :
    bm_iterations t p = 0 := by
  have hp : p ≠ [] := by
    intro hh
    rw [hh] at h
    simp at h
  unfold bm_iterations
  rw [build_shift_table_eq hp]
  dsimp only
  have h2 : t.length + 2 = (t.length + 1) + 1 := rfl
  rw [h2, bmLoopCount_succ, if_neg (by omega)]

theorem rk_iterations_zero_of_long {t p : List Char} (h : t.length < p.length) :
    rk_iterations t p = 0 := by
  have hm : 1 ≤ p.length := by omega
  unfold rk_iterations
  rw [pyPowMod_pos_len hm]
  dsimp only
  rw [show t.length + 1 - p.length = 0 from by omega]
  rfl

/-! ## The claims -/

/-- Claim C1 (corrected): as stated ("for every (text, pattern) pair") the
claim is false — on text `"abc"` and the empty pattern, `kmp_search` raises
an `IndexError` while `rabin_karp_search` returns `0`. -/
theorem claim_c1_counterexample :
    ¬ (kmp_search ['a', 'b', 'c'] [] = rabin_karp_search ['a', 'b', 'c'] []) := by decide

/-- Claim C1 (amended): for every text and every non-empty pattern, the three
matchers `kmp_search`, `boyer_moore_search` and `rabin_karp_search` return
identical results. -/
theorem claim_c1_matchers_agree (t p : List Char) (hp : p ≠ []) :
    kmp_search t p = boyer_moore_search t p ∧
    boyer_moore_search t p = rabin_karp_search t p := by
  rw [kmp_eq_matchResult hp, boyer_moore_eq_matchResult hp, rabin_karp_eq_matchResult hp]
  exact ⟨rfl, rfl⟩

theorem claim_c1_witness :
    (['a'] : List Char) ≠ [] ∧ kmp_search ['b'] ['a'] = boyer_moore_search ['b'] ['a'] :=
  ⟨by decide, (claim_c1_matchers_agree ['b'] ['a'] (by decide)).1⟩

/-- Claim C2 (confirmed): for every text and every non-empty pattern, each of
the three matchers returns the zero-based index of the first occurrence of
the pattern when one exists, and the sentinel `-1` otherwise (`matchResult`
is exactly that specification, built from `firstOcc`). -/
theorem claim_c2_functional_correctness (t p : List Char) (hp : p ≠ []) :
    kmp_search t p = matchResult t p ∧ boyer_moore_search t p = matchResult t p ∧
    rabin_karp_search t p = matchResult t p :=
  ⟨kmp_eq_matchResult hp, boyer_moore_eq_matchResult hp, rabin_karp_eq_matchResult hp⟩

theorem claim_c2_witness :
    (['a', 'a'] : List Char) ≠ [] ∧
    kmp_search ['a', 'a', 'a'] ['a', 'a'] = matchResult ['a', 'a', 'a'] ['a', 'a'] :=
  ⟨by decide, (claim_c2_functional_correctness ['a', 'a', 'a'] ['a', 'a'] (by decide)).1⟩

/-- Claim C3 (confirmed): whenever `rabin_karp_search` returns a non-negative
index `r`, the text slice of pattern length starting at `r` equals the
pattern — no hash collision is ever reported as a match. -/
theorem claim_c3_no_false_positive (main_string substring : List Char) (r : Int)
    (h : rabin_karp_search main_string substring = SearchOutcome.ok r) (hr : 0 ≤ r) :
    occursAt main_string substring r.toNat :=
  rabin_karp_ok_occurs h hr

theorem claim_c3_witness :
    rabin_karp_search ['a', 'b', 'c'] ['b'] = SearchOutcome.ok 1 ∧ (0 : Int) ≤ 1 ∧
    occursAt ['a', 'b', 'c'] ['b'] (1 : Int).toNat :=
  ⟨by decide, by decide,
    claim_c3_no_false_positive ['a', 'b', 'c'] ['b'] 1 (by decide) (by decide)⟩

/-- Claim C4 (confirmed): `compute_lps` always succeeds and returns a table
of exactly `m` entries, entry `i` being the length of the longest proper
border of `pattern[0..i]` (`maxBorder`), with `0 ≤ LPS[i] ≤ i`; for the empty
pattern the table is empty. -/
theorem claim_c4_lps_table (pattern : List Char) :
    compute_lps pattern ≠ none ∧
    ∀ l, compute_lps pattern = some l →
      l.length = pattern.length ∧
      (∀ i, i < pattern.length →
        l.getD i 0 = maxBorder (pattern.take (i + 1)) ∧ l.getD i 0 ≤ i) ∧
      (pattern = [] → l = []) := by
  obtain ⟨l0, hl0, hlen0, hvals0⟩ := compute_lps_some pattern
  constructor
  · rw [hl0]
    simp
  · intro l hl
    rw [hl0] at hl
    injection hl with hl
    subst hl
    refine ⟨hlen0, ?_, ?_⟩
    · intro i hi
      refine ⟨hvals0 i hi, ?_⟩
      rw [hvals0 i hi]
      have htn : pattern.take (i + 1) ≠ [] := by
        apply take_ne_nil_of_pos (by omega)
        intro hh
        rw [hh] at hi
        simp at hi
      have hx := maxBorder_lt htn
      rw [List.length_take] at hx
      omega
    · intro hnil
      have hz : l0.length = 0 := by
        rw [hlen0, hnil]
        rfl
      exact List.eq_nil_of_length_eq_zero hz

theorem claim_c4_witness :
    compute_lps ['a', 'b', 'a', 'b'] = some [0, 0, 1, 2] ∧
    ([0, 0, 1, 2] : List Nat).getD 3 0 = maxBorder (['a', 'b', 'a', 'b'].take (3 + 1)) ∧
    ([0, 0, 1, 2] : List Nat).getD 3 0 ≤ 3 :=
  ⟨by decide,
    ((claim_c4_lps_table ['a', 'b', 'a', 'b']).2 [0, 0, 1, 2] (by decide)).2.1 3 (by decide)⟩

/-- Claim C5 (confirmed): for a non-empty pattern, the bad-character table
maps each symbol occurring before the final position to the distance from
its last such occurrence to the pattern end; the final symbol gets `m`
unless it occurs earlier (the earlier occurrence wins via `setdefault`);
and the lookup `boyer_moore_search` performs (`Option.getD` with default
`m`) yields `m` for absent symbols. -/
theorem claim_c5_shift_table (p : List Char) (hp : p ≠ []) :
    build_shift_table p = some (shiftTableOf p) ∧
    (∀ c j, lastIdx? p.dropLast c = some j →
      shiftTableOf p c = some (p.length - 1 - j)) ∧
    (∀ c, p.getLast? = some c → lastIdx? p.dropLast c = none →
      shiftTableOf p c = some p.length) ∧
    (∀ c, lastIdx? p.dropLast c = none → p.getLast? ≠ some c →
      shiftTableOf p c = none ∧ (shiftTableOf p c).getD p.length = p.length) := by
  refine ⟨build_shift_table_eq hp, ?_, ?_, ?_⟩
  · intro c j hj
    rw [shiftTableOf_lookup hp, hj]
    dsimp only
    have harith : p.length - j - 1 = p.length - 1 - j := by omega
    rw [harith]
  · intro c hlast hnone
    rw [shiftTableOf_lookup hp, hnone]
    dsimp only
    rw [if_pos hlast]
  · intro c hnone hlast
    rw [shiftTableOf_lookup hp, hnone]
    dsimp only
    rw [if_neg hlast]
    exact ⟨rfl, rfl⟩

theorem claim_c5_witness :
    (['a', 'b'] : List Char) ≠ [] ∧
    lastIdx? (['a', 'b'] : List Char).dropLast 'a' = some 0 ∧
    shiftTableOf ['a', 'b'] 'a' = some 1 :=
  ⟨by decide, by decide, (claim_c5_shift_table ['a', 'b'] (by decide)).2.1 'a' 0 (by decide)⟩

/-- Claim C6 (confirmed): with a non-empty pattern of length `m ≤ n`, the
rolling-hash value maintained by `rabin_karp_search` — `polynomial_hash` of
the current window, kept in `[0, 101)` — is preserved by the incremental
update `rkNext` (subtract the outgoing weighted symbol, multiply by the
base, add the incoming symbol, all mod 101), and the precomputed multiplier
is `256^(m-1) mod 101`. -/
theorem claim_c6_rolling_hash (t p : List Char) (hp : p ≠ []) (hmn : p.length ≤ t.length) :
    (∀ i, i + p.length < t.length →
      rkNext 101 256 (256 ^ (p.length - 1) % 101)
          ((polynomial_hash ((t.drop i).take p.length) 256 101 : Int))
          (t.getD i 'a') (t.getD (i + p.length) 'a')
        = ((polynomial_hash ((t.drop (i + 1)).take p.length) 256 101 : Int))) ∧
    (∀ i : Nat, polynomial_hash ((t.drop i).take p.length) 256 101 < 101) ∧
    pyPowMod 256 ((p.length : Int) - 1) 101 = some (256 ^ (p.length - 1) % 101) := by
  have hm : 1 ≤ p.length := List.length_pos.mpr hp
  refine ⟨?_, ?_, pyPowMod_pos_len hm⟩
  · intro i hi
    exact rkNext_correct hm hi
  · intro i
    exact polynomial_hash_lt _

theorem claim_c6_witness :
    (['a', 'b'] : List Char) ≠ [] ∧
    (['a', 'b'] : List Char).length ≤ (['a', 'b', 'c'] : List Char).length ∧
    0 + (['a', 'b'] : List Char).length < (['a', 'b', 'c'] : List Char).length ∧
    rkNext 101 256 (256 ^ ((['a', 'b'] : List Char).length - 1) % 101)
        ((polynomial_hash (((['a', 'b', 'c'] : List Char).drop 0).take
          (['a', 'b'] : List Char).length) 256 101 : Int))
        ((['a', 'b', 'c'] : List Char).getD 0 'a')
        ((['a', 'b', 'c'] : List Char).getD (0 + (['a', 'b'] : List Char).length) 'a')
      = ((polynomial_hash (((['a', 'b', 'c'] : List Char).drop (0 + 1)).take
          (['a', 'b'] : List Char).length) 256 101 : Int)) :=
  ⟨by decide, by decide, by decide,
    (claim_c6_rolling_hash ['a', 'b', 'c'] ['a', 'b'] (by decide) (by decide)).1 0 (by decide)⟩

/-- Claim C7 (corrected): as stated the claim is false — for `m > n`,
`kmp_search` does enter its comparison loop (on text `"a"` and pattern
`"ab"` it executes one iteration), although it still returns the
sentinel. -/
theorem claim_c7_counterexample :
    (['a'] : List Char).length < (['a', 'b'] : List Char).length ∧
    kmp_iterations ['a'] ['a', 'b'] ≠ 0 := by decide

/-- Claim C7 (amended): for every text of length `n` and pattern of length
`m > n`, all three matchers return the sentinel `-1` without error;
`boyer_moore_search` and `rabin_karp_search` do so without entering any
comparison loop (zero iterations), while `kmp_search` may scan the text. -/
theorem claim_c7_long_pattern (t p : List Char) (h : t.length < p.length) :
    kmp_search t p = SearchOutcome.ok (-1) ∧
    boyer_moore_search t p = SearchOutcome.ok (-1) ∧
    rabin_karp_search t p = SearchOutcome.ok (-1) ∧
    bm_iterations t p = 0 ∧ rk_iterations t p = 0 := by
  have hp : p ≠ [] := by
    intro hh
    rw [hh] at h
    simp at h
  have hnone := firstOcc_eq_none_of_long h
  refine ⟨?_, ?_, ?_, bm_iterations_zero_of_long h, rk_iterations_zero_of_long h⟩
  · rw [kmp_eq_matchResult hp]
    exact matchResult_of_none hnone
  · rw [boyer_moore_eq_matchResult hp]
    exact matchResult_of_none hnone
  · rw [rabin_karp_eq_matchResult hp]
    exact matchResult_of_none hnone

theorem claim_c7_witness :
    (['a'] : List Char).length < (['a', 'b'] : List Char).length ∧
    kmp_search ['a'] ['a', 'b'] = SearchOutcome.ok (-1) :=
  ⟨by decide, (claim_c7_long_pattern ['a'] ['a', 'b'] (by decide)).1⟩

/-- Claim C8 (corrected): as stated the claim is false — on text `"abc"`
with the empty pattern, `kmp_search` raises an `IndexError` instead of
returning `0`. -/
theorem claim_c8_counterexample :
    kmp_search ['a', 'b', 'c'] [] ≠ SearchOutcome.ok 0 := by decide

/-- Claim C8 (amended): on the empty pattern the three matchers do NOT agree:
`kmp_search` raises an `IndexError` on every non-empty text (and returns the
sentinel on the empty text), `boyer_moore_search` raises an `IndexError` on
every text (`pattern[-1]` in `build_shift_table`), and only
`rabin_karp_search` returns index `0`. -/
theorem claim_c8_empty_pattern :
    (∀ t : List Char, t ≠ [] → kmp_search t [] = SearchOutcome.error) ∧
    (∀ t : List Char, boyer_moore_search t [] = SearchOutcome.error) ∧
    (∀ t : List Char, rabin_karp_search t [] = SearchOutcome.ok 0) ∧
    kmp_search [] [] = SearchOutcome.ok (-1) :=
  ⟨fun _ ht => kmp_search_empty_pattern ht, boyer_moore_search_empty_pattern,
    rabin_karp_search_empty_pattern, rfl⟩

theorem claim_c8_witness :
    (['a', 'b', 'c'] : List Char) ≠ [] ∧
    kmp_search ['a', 'b', 'c'] [] = SearchOutcome.error :=
  ⟨by decide, claim_c8_empty_pattern.1 ['a', 'b', 'c'] (by decide)⟩

/-- Claim C9 (confirmed): for every text and non-empty pattern the
`kmp_search` scan loop terminates (the fuel `2n+1` is never exhausted), the
text cursor never moves backward in any step, and the `compute_lps`
construction loop terminates for every pattern. -/
theorem claim_c9_termination :
    (∀ t p : List Char, p ≠ [] → kmp_search t p ≠ SearchOutcome.timeout) ∧
    (∀ (p t : List Char) (lps : List Nat) (i j i2 j2 : Nat),
      kmpStep p t lps i j = KmpStep.next i2 j2 → i ≤ i2) ∧
    (∀ p : List Char, compute_lps p ≠ none) := by
  refine ⟨?_, ?_, ?_⟩
  · intro t p hp
    rw [kmp_eq_matchResult hp]
    exact matchResult_ne_timeout t p
  · exact kmpStep_monotone
  · intro p
    obtain ⟨l, hl, _, _⟩ := compute_lps_some p
    rw [hl]
    simp

theorem claim_c9_witness :
    (['b'] : List Char) ≠ [] ∧ kmp_search ['a'] ['b'] ≠ SearchOutcome.timeout :=
  ⟨by decide, claim_c9_termination.1 ['a'] ['b'] (by decide)⟩

/-- Claim C10 (confirmed): for every text, `rabin_karp_search` with the empty
pattern returns `0` without error: the pattern hash and the empty initial
window hash are both `0`, and `pow(256, -1, 101)` is the well-defined modular
inverse `58` of `256` modulo `101`. -/
theorem claim_c10_rk_empty_pattern (t : List Char) :
    rabin_karp_search t [] = SearchOutcome.ok 0 ∧
    polynomial_hash [] 256 101 = 0 ∧
    pyPowMod 256 (-1) 101 = some 58 ∧ 256 * 58 % 101 = 1 :=
  ⟨rabin_karp_search_empty_pattern t, rfl, pyPowMod_neg_one, by decide⟩
